import Mathlib

/-!
Verification of the grouping engine and phase/timer state machine of the
jigsaw classroom application (src/app.py).

Conventions of the embedding:
* Python dicts that are only ever extended with fresh keys, or updated in
  place, are modelled as association lists in insertion order; `dictSet`
  reproduces the dict assignment `d[k] = v` (update in place when the key
  exists, append otherwise).
* `random.Random(seed).shuffle(xs)` is the Fisher-Yates shuffle driven by
  the pseudo-random draws of the Mersenne Twister.  The seed enters only
  through the sequence of draws, so the shuffle is embedded as Fisher-Yates
  parameterised by an arbitrary draw oracle `g : Nat → Nat` (the draw used
  at step `i` is `g i % (i + 1)`, matching `randbelow(i + 1)`).  Every
  seeded run of the Python code corresponds to one such oracle, so theorems
  quantified over all oracles cover all seeds.
* Python code that can raise is embedded with `PyResult`; an out-of-range
  list subscript becomes `PyResult.exn "IndexError"`.
-/

/-- Outcome of running a piece of Python code: a value, or an uncaught
exception identified by its class name. -/
inductive PyResult (α : Type) where
  | ok (val : α)
  | exn (name : String)
deriving DecidableEq, Repr

/-- The in-place swap `x[i], x[j] = x[j], x[i]` on a list; out-of-range
indices leave the list unchanged (they cannot occur in the shuffle loop). -/
def listSwap {α : Type} (l : List α) (i j : Nat) : List α :=
  match l[i]?, l[j]? with
  | some a, some b => (l.set i b).set j a
  | _, _ => l

/-- The loop of `random.shuffle`: for `i` from `len - 1` down to `1`, swap
position `i` with position `g i % (i + 1)` (the embedding of
`randbelow(i + 1)`). -/
def fyAux {α : Type} (g : Nat → Nat) : Nat → List α → List α
  | 0, l => l
  | k + 1, l => fyAux g k (listSwap l (k + 1) (g (k + 1) % (k + 2)))

/-- `random.Random(seed).shuffle` on a copy of the list, with the seeded
Mersenne-Twister draw stream abstracted as the oracle `g`. -/
def shuffle {α : Type} (g : Nat → Nat) (l : List α) : List α :=
  fyAux g (l.length - 1) l

theorem set_getElem_self {α : Type} :
    ∀ (l : List α) (i : Nat) (h : i < l.length), l.set i l[i] = l := by
  intro l
  induction l with
  | nil => intro i h; simp at h
  | cons x t ih =>
      intro i h
      cases i with
      | zero => simp
      | succ k =>
          simp only [List.set_cons_succ, List.getElem_cons_succ]
          rw [ih k (by simpa using h)]

theorem cons_get_set_perm {α : Type} :
    ∀ (l : List α) (m : Nat) (h : m < l.length) (x : α),
      (l[m] :: l.set m x).Perm (x :: l) := by
  intro l
  induction l with
  | nil => intro m h; simp at h
  | cons y u ih =>
      intro m h x
      cases m with
      | zero => simpa using List.Perm.swap x y u
      | succ k =>
          have hk : k < u.length := by simpa using h
          simp only [List.getElem_cons_succ, List.set_cons_succ]
          exact ((List.Perm.swap y u[k] (u.set k x)).trans
            ((ih k hk x).cons y)).trans (List.Perm.swap x y u)

theorem set_set_perm {α : Type} :
    ∀ (l : List α) (i j : Nat) (hi : i < l.length) (hj : j < l.length),
      ((l.set i l[j]).set j l[i]).Perm l := by
  intro l
  induction l with
  | nil => intro i j hi; simp at hi
  | cons x t ih =>
      intro i j hi hj
      cases i with
      | zero =>
          cases j with
          | zero => simp
          | succ m =>
              have hm : m < t.length := by simpa using hj
              simp only [List.getElem_cons_succ, List.getElem_cons_zero,
                List.set_cons_zero, List.set_cons_succ]
              exact cons_get_set_perm t m hm x
      | succ k =>
          have hk : k < t.length := by simpa using hi
          cases j with
          | zero =>
              simp only [List.getElem_cons_succ, List.getElem_cons_zero,
                List.set_cons_zero, List.set_cons_succ]
              exact cons_get_set_perm t k hk x
          | succ m =>
              have hm : m < t.length := by simpa using hj
              simp only [List.getElem_cons_succ, List.set_cons_succ]
              exact (ih k m hk hm).cons x

theorem listSwap_perm {α : Type} (l : List α) (i j : Nat) :
    (listSwap l i j).Perm l := by
  unfold listSwap
  cases hi : l[i]? with
  | none => exact List.Perm.refl l
  | some a =>
      cases hj : l[j]? with
      | none => exact List.Perm.refl l
      | some b =>
          have hi' : i < l.length := by
            by_contra h
            rw [List.getElem?_eq_none (Nat.le_of_not_lt h)] at hi
            exact Option.noConfusion hi
          have hj' : j < l.length := by
            by_contra h
            rw [List.getElem?_eq_none (Nat.le_of_not_lt h)] at hj
            exact Option.noConfusion hj
          have ha : a = l[i] := by
            rw [List.getElem?_eq_getElem hi'] at hi
            exact (Option.some.inj hi).symm
          have hb : b = l[j] := by
            rw [List.getElem?_eq_getElem hj'] at hj
            exact (Option.some.inj hj).symm
          rw [ha, hb]
          exact set_set_perm l i j hi' hj'

theorem fyAux_perm {α : Type} (g : Nat → Nat) :
    ∀ (k : Nat) (l : List α), (fyAux g k l).Perm l := by
  intro k
  induction k with
  | zero => intro l; exact List.Perm.refl l
  | succ k ih =>
      intro l
      exact (ih _).trans (listSwap_perm l (k + 1) (g (k + 1) % (k + 2)))

theorem shuffle_perm {α : Type} (g : Nat → Nat) (l : List α) :
    (shuffle g l).Perm l :=
  fyAux_perm g (l.length - 1) l

/-- The Python dict assignment `d[k] = v` on an insertion-ordered
association list: update in place when `k` is already a key, append
otherwise. -/
def dictSet (d : List (String × String)) (k v : String) : List (String × String) :=
  if k ∈ d.map Prod.fst then
    d.map (fun p => if p.1 = k then (p.1, v) else p)
  else d ++ [(k, v)]

/-- The loop of `assign_topics_evenly`:
`for i, s in enumerate(shuffled): mapping[s] = topics[i % t]`.
The subscript `topics[i % t]` raises IndexError when out of range. -/
def assignLoop (topics : List String) (t : Nat) :
    List (Nat × String) → List (String × String) → PyResult (List (String × String))
  | [], m => .ok m
  | (i, s) :: rest, m =>
    match topics[i % t]? with
    | some tp => assignLoop topics t rest (dictSet m s tp)
    | none => .exn "IndexError"

/-- `assign_topics_evenly(students, topics, seed)` from src/app.py, with the
seeded draw stream abstracted as the oracle `g`: shuffle the roster, then
map the i-th learner of the shuffled order to `topics[i % max(1, len(topics))]`. -/
def assign_topics_evenly (g : Nat → Nat) (students topics : List String) :
    PyResult (List (String × String)) :=
  assignLoop topics (max 1 topics.length) (shuffle g students).enum []

/-- One step of the loop of `invert_to_experts`:
`experts.setdefault(topic, []).append(student)`. -/
def addExpert (e : List (String × List String)) (tp s : String) :
    List (String × List String) :=
  if tp ∈ e.map Prod.fst then
    e.map (fun p => if p.1 = tp then (p.1, p.2 ++ [s]) else p)
  else e ++ [(tp, [s])]

/-- Ascending sort of a list of strings, the embedding of the Python
`list.sort()` on the expert buckets (lexicographic by code point, which is
the order of the `LinearOrder String` instance). -/
def sortStrings (l : List String) : List String :=
  List.insertionSort (· ≤ ·) l

/-- The bucketing loop of `invert_to_experts` before the sorting pass. -/
def expertsFold (a : List (String × String)) : List (String × List String) :=
  a.foldl (fun e p => addExpert e p.2 p.1) []

/-- `invert_to_experts(assignment)` from src/app.py: bucket the learners by
their topic in insertion order, then sort each bucket alphabetically. -/
def invert_to_experts (a : List (String × String)) : List (String × List String) :=
  (expertsFold a).map (fun p => (p.1, sortStrings p.2))

/-- `max(ns, default=0)` over a list of naturals. -/
def listMax (l : List Nat) : Nat := l.foldr max 0

/-- `groups[k].append(x)`: extend the k-th group in place. -/
def appendAt {α : Type} (gs : List (List α)) (k : Nat) (x : α) : List (List α) :=
  gs.set k (gs.getD k [] ++ [x])

/-- `for i, x in enumerate(items, start): groups[i % n].append(x)`. -/
def distributeFrom {α : Type} (n : Nat) : Nat → List α → List (List α) → List (List α)
  | _, [], gs => gs
  | i, x :: rest, gs => distributeFrom n (i + 1) rest (appendAt gs (i % n) x)

/-- The outer loop of `build_stammgruppen`: round-robin the members of each
topic bucket (as (student, topic) pairs) into the fixed array of groups. -/
def placeTopics (n : Nat) :
    List (String × List String) → List (List (String × String)) →
      List (List (String × String))
  | [], gs => gs
  | (tp, ms) :: rest, gs =>
      placeTopics n rest (distributeFrom n 0 (ms.map (fun s => (s, tp))) gs)

/-- `build_stammgruppen(expert_groups)` from src/app.py. -/
def build_stammgruppen (eg : List (String × List String)) :
    List (List (String × String)) :=
  if eg.isEmpty then []
  else
    let n := listMax (eg.map (fun p => p.2.length))
    if n = 0 then []
    else placeTopics n eg (List.replicate n [])

/-- `build_simple_groups(students, group_count, seed)` from src/app.py; the
shuffle (seeded or from the ambient generator) is abstracted as the draw
oracle `g`.  `group_count` is a Python int, hence `Int` here. -/
def build_simple_groups (g : Nat → Nat) (students : List String)
    (group_count : Int) : List (List String) :=
  if group_count ≤ 0 ∨ students = [] then []
  else
    let count := min group_count.toNat students.length
    distributeFrom count 0 (shuffle g students) (List.replicate count [])

/-- The fields of `AppState` that the phase/timer state machine reads or
writes (src/app.py); rendering-only fields are omitted. -/
structure SessionState where
  students : List String
  topics : List String
  dur_expert : Nat
  dur_stamm : Nat
  assignment : List (String × String)
  experts : List (String × List String)
  stammgruppen : List (List (String × String))
  phase : Nat
  seconds_left : Nat
  running : Bool
deriving DecidableEq

/-- `PhaseFrame._tick` from src/app.py, restricted to its state effect: when
running and seconds_left > 0, decrement; when running and seconds_left = 0,
stop the timer (the bell and label updates are rendering). -/
def tick (st : SessionState) : SessionState :=
  if st.running then
    if st.seconds_left > 0 then { st with seconds_left := st.seconds_left - 1 }
    else { st with running := false }
  else st

/-- What `PhaseFrame._next` reports to the operator. -/
inductive NextSignal where
  | advanced
  | sessionComplete
deriving DecidableEq

/-- `PhaseFrame._next` from src/app.py: advance Phase1→Phase2→Phase3 with a
reset, stopped timer and recomputed groupings; from Phase3 stop the timer
and report completion (the "Jigsaw-Durchlauf beendet" message box). -/
def next_phase (st : SessionState) : SessionState × NextSignal :=
  if st.phase < 3 then
    let ph := st.phase + 1
    let secs := if ph = 2 then st.dur_expert * 60
      else if ph = 3 then st.dur_stamm * 60 else st.seconds_left
    let e := invert_to_experts st.assignment
    ({ st with
        phase := ph
        running := false
        seconds_left := secs
        experts := e
        stammgruppen := build_stammgruppen e }, .advanced)
  else ({ st with running := false }, .sessionComplete)

/-- What `PhaseFrame._apply_change` reports: a warning dialog (selection
missing) or an applied reassignment. -/
inductive ApplySignal where
  | warned
  | applied
deriving DecidableEq

/-- `PhaseFrame._apply_change` from src/app.py: with the selected student
`s` and topic `t`, warn and stop if either selection is empty, otherwise
set `assignment[s] = t` and recompute experts and stamm groups. -/
def apply_change (st : SessionState) (s t : String) :
    SessionState × ApplySignal :=
  if s = "" ∨ t = "" then (st, .warned)
  else
    let a := dictSet st.assignment s t
    let e := invert_to_experts a
    ({ st with
        assignment := a
        experts := e
        stammgruppen := build_stammgruppen e }, .applied)

/-- Specification helper: the elements of `l` sitting at absolute positions
`i, i+1, ...` whose position is congruent to `k` mod `n`; this is what the
round-robin loop `groups[pos % n].append(x)` sends to group `k`. -/
def takeEvery {α : Type} (n k : Nat) : Nat → List α → List α
  | _, [] => []
  | i, x :: rest => (if i % n = k then [x] else []) ++ takeEvery n k (i + 1) rest


theorem length_filter_comp {α β : Type} (f : α → β) (q : β → Bool) (l : List α) :
    ((l.map f).filter q).length = (l.filter (fun x => q (f x))).length := by
  rw [List.filter_map]
  rw [List.length_map]
  rfl

theorem len_filter_cons {α : Type} (q : α → Bool) (a : α) (l : List α) :
    (List.filter q (a :: l)).length =
      (if q a then 1 else 0) + (List.filter q l).length := by
  cases hqa : q a <;> simp [List.filter_cons, hqa] <;> omega

theorem filter_mod_length (t j : Nat) (ht : 0 < t) (hj : j < t) :
    ∀ n : Nat, ((List.range n).filter (fun i => i % t = j)).length =
      n / t + if j < n % t then 1 else 0 := by
  intro n
  induction n with
  | zero => simp [Nat.zero_div, Nat.zero_mod, Nat.not_lt_zero]
  | succ n ih =>
      rw [List.range_succ, List.filter_append, List.length_append, ih]
      have hsing : (List.filter (fun i => decide (i % t = j)) [n]).length =
          if n % t = j then 1 else 0 := by
        by_cases he : n % t = j <;> simp [he]
      rw [hsing]
      have hmod : n % t < t := Nat.mod_lt n ht
      by_cases hc : n % t + 1 = t
      · have hdvd : t ∣ n + 1 := ⟨n / t + 1, by
          have hdm : t * (n / t) + n % t = n := Nat.div_add_mod n t
          rw [Nat.mul_add, Nat.mul_one]; omega⟩
        have hdiv : (n + 1) / t = n / t + 1 := by
          rw [Nat.succ_div, if_pos hdvd]
        have hm : (n + 1) % t = 0 := Nat.dvd_iff_mod_eq_zero.mp hdvd
        rw [hdiv, hm]
        split_ifs <;> omega
      · have hdm : t * (n / t) + n % t = n := Nat.div_add_mod n t
        have hm : (n + 1) % t = n % t + 1 := by
          have hx : n + 1 = (n % t + 1) + t * (n / t) := by omega
          rw [hx, Nat.add_mul_mod_self_left]
          exact Nat.mod_eq_of_lt (by omega)
        have hnd : ¬ t ∣ n + 1 := by
          rw [Nat.dvd_iff_mod_eq_zero, hm]
          omega
        have hdiv : (n + 1) / t = n / t := by
          rw [Nat.succ_div, if_neg hnd]
          omega
        rw [hdiv, hm]
        split_ifs <;> omega

theorem takeEvery_length {α : Type} (t j : Nat) :
    ∀ (l : List α) (i : Nat), (takeEvery t j i l).length =
      ((List.range l.length).filter (fun p => (i + p) % t = j)).length := by
  intro l
  induction l with
  | nil => intro i; simp [takeEvery]
  | cons x rest ih =>
      intro i
      have hfun : ∀ p, p ∈ List.range rest.length →
          (decide ((i + Nat.succ p) % t = j)) = (decide (((i + 1) + p) % t = j)) := by
        intro p _
        have hp : i + Nat.succ p = (i + 1) + p := by omega
        rw [hp]
      simp only [takeEvery, List.length_append, List.length_cons]
      rw [List.range_succ_eq_map, len_filter_cons, length_filter_comp]
      rw [List.filter_congr hfun, ← ih (i + 1)]
      by_cases hz : i % t = j
      · have hz0 : (i + 0) % t = j := by simpa using hz
        simp [hz, hz0]
      · have hz0 : ¬ ((i + 0) % t = j) := by simpa using hz
        simp [hz, hz0]

theorem appendAt_length {α : Type} (gs : List (List α)) (k : Nat) (x : α) :
    (appendAt gs k x).length = gs.length := by
  simp [appendAt]

theorem appendAt_getD {α : Type} (gs : List (List α)) (m k : Nat) (x : α)
    (hk : k < gs.length) :
    (appendAt gs m x).getD k [] =
      if m = k then gs.getD k [] ++ [x] else gs.getD k [] := by
  unfold appendAt
  rw [List.getD_eq_getElem?_getD, List.getElem?_set, List.getD_eq_getElem?_getD]
  by_cases hmk : m = k
  · subst hmk
    rw [if_pos rfl, if_pos rfl, if_pos hk]
    rw [List.getElem?_eq_getElem hk]
    simp [List.getD_eq_getElem?_getD, List.getElem?_eq_getElem hk]
  · rw [if_neg hmk, if_neg hmk, List.getD_eq_getElem?_getD]

theorem appendAt_flatten_perm {α : Type} :
    ∀ (gs : List (List α)) (k : Nat), k < gs.length → ∀ (x : α),
      (appendAt gs k x).flatten.Perm (gs.flatten ++ [x]) := by
  intro gs
  induction gs with
  | nil => intro k hk; simp at hk
  | cons y u ih =>
      intro k hk x
      cases k with
      | zero =>
          simp only [appendAt, List.set_cons_zero, List.getD_cons_zero,
            List.flatten_cons]
          rw [List.append_assoc, List.append_assoc]
          exact List.Perm.append_left y List.perm_append_comm
      | succ m =>
          have hm : m < u.length := by simpa using hk
          have hstep : appendAt (y :: u) (m + 1) x = y :: appendAt u m x := by
            simp [appendAt, List.getD_cons_succ]
          rw [hstep]
          simp only [List.flatten_cons]
          rw [List.append_assoc]
          exact List.Perm.append_left y (ih m hm x)

theorem distributeFrom_length {α : Type} (n : Nat) :
    ∀ (l : List α) (i : Nat) (gs : List (List α)),
      (distributeFrom n i l gs).length = gs.length := by
  intro l
  induction l with
  | nil => intro i gs; rfl
  | cons x rest ih =>
      intro i gs
      rw [distributeFrom, ih, appendAt_length]

theorem distributeFrom_getD {α : Type} (n : Nat) (h0 : 0 < n) :
    ∀ (l : List α) (i : Nat) (gs : List (List α)) (k : Nat),
      n = gs.length → k < gs.length →
      (distributeFrom n i l gs).getD k [] = gs.getD k [] ++ takeEvery n k i l := by
  intro l
  induction l with
  | nil => intro i gs k _ _; simp [distributeFrom, takeEvery]
  | cons x rest ih =>
      intro i gs k hn hk
      rw [distributeFrom, ih (i + 1) (appendAt gs (i % n) x) k
        (by rw [appendAt_length]; exact hn) (by rw [appendAt_length]; exact hk)]
      rw [appendAt_getD gs (i % n) k x hk]
      by_cases hik : i % n = k
      · rw [if_pos hik, takeEvery, if_pos hik, List.append_assoc]
      · rw [if_neg hik, takeEvery, if_neg hik]
        rfl

theorem distributeFrom_flatten_perm {α : Type} (n : Nat) (h0 : 0 < n) :
    ∀ (l : List α) (i : Nat) (gs : List (List α)), n = gs.length →
      (distributeFrom n i l gs).flatten.Perm (gs.flatten ++ l) := by
  intro l
  induction l with
  | nil => intro i gs _; simp [distributeFrom]
  | cons x rest ih =>
      intro i gs hn
      have hin : i % n < gs.length := hn ▸ Nat.mod_lt i h0
      rw [distributeFrom]
      have h1 := ih (i + 1) (appendAt gs (i % n) x)
        (by rw [appendAt_length]; exact hn)
      have h3 := (appendAt_flatten_perm gs (i % n) hin x).append_right rest
      have h4 : (gs.flatten ++ [x]) ++ rest = gs.flatten ++ (x :: rest) := by
        rw [List.append_assoc]
        rfl
      rw [h4] at h3
      exact h1.trans h3

theorem takeEvery_sublist {α : Type} (n k : Nat) :
    ∀ (l : List α) (i : Nat), (takeEvery n k i l).Sublist l := by
  intro l
  induction l with
  | nil => intro i; simp [takeEvery]
  | cons x rest ih =>
      intro i
      rw [takeEvery]
      by_cases hik : i % n = k
      · rw [if_pos hik]
        exact (ih (i + 1)).cons₂ x
      · rw [if_neg hik]
        exact (ih (i + 1)).cons x

theorem takeEvery_of_short {α : Type} (n k : Nat) :
    ∀ (l : List α) (i : Nat), i + l.length ≤ n →
      takeEvery n k i l = if i ≤ k then (l[k - i]?).toList else [] := by
  intro l
  induction l with
  | nil => intro i _; simp [takeEvery]
  | cons x rest ih =>
      intro i hle
      have hi : i < n := by simp at hle; omega
      have him : i % n = i := Nat.mod_eq_of_lt hi
      rw [takeEvery, him, ih (i + 1) (by simp at hle ⊢; omega)]
      by_cases hik : i = k
      · subst hik
        rw [if_pos rfl, if_neg (by omega), if_pos (Nat.le_refl i)]
        simp
      · rw [if_neg hik]
        by_cases hlt : i ≤ k
        · have hlt' : i + 1 ≤ k := by omega
          rw [if_pos hlt', if_pos hlt]
          have hsub : k - i = (k - (i + 1)) + 1 := by omega
          rw [hsub]
          simp
        · rw [if_neg (by omega), if_neg hlt]
          rfl

theorem addExpert_keys_of_mem (e : List (String × List String)) (tp s : String)
    (h : tp ∈ e.map Prod.fst) :
    (addExpert e tp s).map Prod.fst = e.map Prod.fst := by
  unfold addExpert
  rw [if_pos h, List.map_map]
  apply List.map_congr_left
  intro p _
  by_cases hp : p.1 = tp <;> simp [hp]

theorem addExpert_keys_of_not_mem (e : List (String × List String)) (tp s : String)
    (h : tp ∉ e.map Prod.fst) :
    (addExpert e tp s).map Prod.fst = e.map Prod.fst ++ [tp] := by
  unfold addExpert
  rw [if_neg h, List.map_append]
  rfl

theorem addExpert_keys_mem (e : List (String × List String)) (tp s x : String) :
    x ∈ (addExpert e tp s).map Prod.fst ↔ x ∈ e.map Prod.fst ∨ x = tp := by
  by_cases h : tp ∈ e.map Prod.fst
  · rw [addExpert_keys_of_mem e tp s h]
    constructor
    · exact Or.inl
    · rintro (hx | hx)
      · exact hx
      · rw [hx]; exact h
  · rw [addExpert_keys_of_not_mem e tp s h]
    simp

theorem addExpert_keys_nodup (e : List (String × List String)) (tp s : String)
    (h : (e.map Prod.fst).Nodup) :
    ((addExpert e tp s).map Prod.fst).Nodup := by
  by_cases hm : tp ∈ e.map Prod.fst
  · rw [addExpert_keys_of_mem e tp s hm]
    exact h
  · rw [addExpert_keys_of_not_mem e tp s hm]
    refine List.nodup_append.mpr ⟨h, List.nodup_singleton tp, ?_⟩
    intro x hx hx2
    simp only [List.mem_singleton] at hx2
    subst hx2
    exact hm hx

theorem addExpert_flatten_perm :
    ∀ (e : List (String × List String)), ((e.map Prod.fst).Nodup) →
      ∀ (tp s : String),
      (((addExpert e tp s).map Prod.snd).flatten).Perm
        ((e.map Prod.snd).flatten ++ [s]) := by
  intro e
  induction e with
  | nil =>
      intro _ tp s
      simp [addExpert]
  | cons p rest ih =>
      intro h tp s
      have hp1 : p.1 ∉ rest.map Prod.fst := by
        have := h
        simp only [List.map_cons, List.nodup_cons] at this
        exact this.1
      have hrest : (rest.map Prod.fst).Nodup := by
        have := h
        simp only [List.map_cons, List.nodup_cons] at this
        exact this.2
      by_cases hptp : p.1 = tp
      · have hmem : tp ∈ (p :: rest).map Prod.fst := by
          simp [← hptp]
        unfold addExpert
        rw [if_pos hmem]
        have hrw : (p :: rest).map (fun q => if q.1 = tp then (q.1, q.2 ++ [s]) else q) =
            (p.1, p.2 ++ [s]) :: rest := by
          rw [List.map_cons, if_pos hptp]
          congr 1
          have h1 : rest.map (fun q => if q.1 = tp then (q.1, q.2 ++ [s]) else q) =
              rest.map id := by
            apply List.map_congr_left
            intro q hq
            have hqt : q.1 ≠ tp := by
              intro hcon
              exact hp1 (by
                rw [hptp, ← hcon]
                exact List.mem_map_of_mem Prod.fst hq)
            rw [if_neg hqt]
            rfl
          rw [h1, List.map_id]
        rw [hrw]
        simp only [List.map_cons, List.flatten_cons]
        rw [List.append_assoc, List.append_assoc]
        exact List.Perm.append_left p.2 List.perm_append_comm
      · by_cases hmem : tp ∈ rest.map Prod.fst
        · have hmem' : tp ∈ (p :: rest).map Prod.fst := by
            simp only [List.map_cons, List.mem_cons]
            exact Or.inr hmem
          unfold addExpert
          rw [if_pos hmem']
          rw [List.map_cons, if_neg hptp]
          have hrest_eq : rest.map (fun q => if q.1 = tp then (q.1, q.2 ++ [s]) else q) =
              addExpert rest tp s := by
            unfold addExpert
            rw [if_pos hmem]
          rw [hrest_eq]
          simp only [List.map_cons, List.flatten_cons]
          rw [List.append_assoc]
          exact List.Perm.append_left p.2 (ih hrest tp s)
        · have hmem' : tp ∉ (p :: rest).map Prod.fst := by
            simp only [List.map_cons, List.mem_cons]
            rintro (hx | hx)
            · exact hptp hx.symm
            · exact hmem hx
          unfold addExpert
          rw [if_neg hmem']
          simp only [List.map_append, List.flatten_append, List.map_cons,
            List.flatten_cons, List.map_nil, List.flatten_nil, List.append_nil,
            List.append_assoc]
          exact List.Perm.refl _

theorem addExpert_snd_ne_nil (e : List (String × List String)) (tp s : String)
    (h : ∀ p ∈ e, p.2 ≠ []) :
    ∀ p ∈ addExpert e tp s, p.2 ≠ [] := by
  intro p hp
  unfold addExpert at hp
  by_cases hm : tp ∈ e.map Prod.fst
  · rw [if_pos hm] at hp
    obtain ⟨q, hq, hqe⟩ := List.mem_map.mp hp
    by_cases hqt : q.1 = tp
    · rw [if_pos hqt] at hqe
      rw [← hqe]
      simp
    · rw [if_neg hqt] at hqe
      rw [← hqe]
      exact h q hq
  · rw [if_neg hm] at hp
    rcases List.mem_append.mp hp with hx | hx
    · exact h p hx
    · simp only [List.mem_singleton] at hx
      rw [hx]
      simp

theorem foldAdd_keys_nodup :
    ∀ (a : List (String × String)) (e : List (String × List String)),
      (e.map Prod.fst).Nodup →
      ((a.foldl (fun e p => addExpert e p.2 p.1) e).map Prod.fst).Nodup := by
  intro a
  induction a with
  | nil => intro e h; exact h
  | cons p rest ih =>
      intro e h
      rw [List.foldl_cons]
      exact ih _ (addExpert_keys_nodup e p.2 p.1 h)

theorem foldAdd_flatten_perm :
    ∀ (a : List (String × String)) (e : List (String × List String)),
      (e.map Prod.fst).Nodup →
      (((a.foldl (fun e p => addExpert e p.2 p.1) e).map Prod.snd).flatten).Perm
        ((e.map Prod.snd).flatten ++ a.map Prod.fst) := by
  intro a
  induction a with
  | nil => intro e _; simp
  | cons p rest ih =>
      intro e h
      rw [List.foldl_cons]
      have h1 := ih (addExpert e p.2 p.1) (addExpert_keys_nodup e p.2 p.1 h)
      have h2 := (addExpert_flatten_perm e h p.2 p.1).append_right (rest.map Prod.fst)
      have h3 : ((e.map Prod.snd).flatten ++ [p.1]) ++ rest.map Prod.fst =
          (e.map Prod.snd).flatten ++ ((p :: rest).map Prod.fst) := by
        rw [List.append_assoc]
        rfl
      rw [h3] at h2
      exact h1.trans h2

theorem foldAdd_keys_mem :
    ∀ (a : List (String × String)) (e : List (String × List String)) (x : String),
      (x ∈ (a.foldl (fun e p => addExpert e p.2 p.1) e).map Prod.fst ↔
        x ∈ e.map Prod.fst ∨ x ∈ a.map Prod.snd) := by
  intro a
  induction a with
  | nil => intro e x; simp
  | cons p rest ih =>
      intro e x
      rw [List.foldl_cons, ih (addExpert e p.2 p.1) x]
      rw [addExpert_keys_mem e p.2 p.1 x]
      simp only [List.map_cons, List.mem_cons]
      tauto

theorem foldAdd_snd_ne_nil :
    ∀ (a : List (String × String)) (e : List (String × List String)),
      (∀ p ∈ e, p.2 ≠ []) →
      ∀ p ∈ a.foldl (fun e p => addExpert e p.2 p.1) e, p.2 ≠ [] := by
  intro a
  induction a with
  | nil => intro e h; exact h
  | cons p rest ih =>
      intro e h
      rw [List.foldl_cons]
      exact ih _ (addExpert_snd_ne_nil e p.2 p.1 h)

theorem sortStrings_perm (l : List String) : (sortStrings l).Perm l :=
  List.perm_insertionSort (· ≤ ·) l

theorem invert_keys_eq (a : List (String × String)) :
    (invert_to_experts a).map Prod.fst = (expertsFold a).map Prod.fst := by
  unfold invert_to_experts
  rw [List.map_map]
  rfl

theorem invert_keys_nodup (a : List (String × String)) :
    ((invert_to_experts a).map Prod.fst).Nodup := by
  rw [invert_keys_eq]
  exact foldAdd_keys_nodup a [] (by simp)

theorem invert_keys_mem (a : List (String × String)) (tp : String) :
    tp ∈ (invert_to_experts a).map Prod.fst ↔ tp ∈ a.map Prod.snd := by
  rw [invert_keys_eq]
  have := foldAdd_keys_mem a [] tp
  simpa [expertsFold] using this

theorem map_sort_flatten_perm :
    ∀ (L : List (String × List String)),
      (((L.map (fun p => (p.1, sortStrings p.2))).map Prod.snd).flatten).Perm
        ((L.map Prod.snd).flatten) := by
  intro L
  induction L with
  | nil => simp
  | cons p rest ih =>
      simp only [List.map_cons, List.flatten_cons]
      exact (sortStrings_perm p.2).append ih

theorem invert_flatten_perm (a : List (String × String)) :
    (((invert_to_experts a).map Prod.snd).flatten).Perm (a.map Prod.fst) := by
  unfold invert_to_experts
  have h1 := map_sort_flatten_perm (expertsFold a)
  have h2 := foldAdd_flatten_perm a [] (by simp)
  simp only [List.map_nil, List.flatten_nil, List.nil_append] at h2
  exact h1.trans h2

theorem invert_sorted (a : List (String × String)) :
    ∀ p ∈ invert_to_experts a, List.Sorted (· ≤ ·) p.2 := by
  intro p hp
  unfold invert_to_experts at hp
  obtain ⟨q, _, hq⟩ := List.mem_map.mp hp
  rw [← hq]
  exact List.sorted_insertionSort (· ≤ ·) q.2

theorem invert_snd_ne_nil (a : List (String × String)) :
    ∀ p ∈ invert_to_experts a, p.2 ≠ [] := by
  intro p hp
  unfold invert_to_experts at hp
  obtain ⟨q, hqmem, hq⟩ := List.mem_map.mp hp
  have hne : q.2 ≠ [] := foldAdd_snd_ne_nil a [] (by simp) q hqmem
  rw [← hq]
  show sortStrings q.2 ≠ []
  intro hcon
  apply hne
  have := (sortStrings_perm q.2).length_eq
  simp only [hcon, List.length_nil] at this
  exact List.length_eq_zero.mp this.symm

theorem dictSet_of_not_mem (d : List (String × String)) (k v : String)
    (h : k ∉ d.map Prod.fst) : dictSet d k v = d ++ [(k, v)] := by
  unfold dictSet
  rw [if_neg h]

theorem assignLoop_ok (topics : List String) (t : Nat) :
    ∀ (ps : List (Nat × String)) (m : List (String × String)),
      (∀ p ∈ ps, p.1 % t < topics.length) →
      ((ps.map Prod.snd).Nodup) →
      (∀ p ∈ ps, p.2 ∉ m.map Prod.fst) →
      assignLoop topics t ps m =
        .ok (m ++ ps.map (fun p => (p.2, topics.getD (p.1 % t) ""))) := by
  intro ps
  induction ps with
  | nil => intro m _ _ _; simp [assignLoop]
  | cons q rest ih =>
      intro m h1 h2 h3
      obtain ⟨i, s⟩ := q
      have hi : i % t < topics.length := h1 (i, s) (List.mem_cons_self _ _)
      have hget : topics[i % t]? = some topics[i % t] := List.getElem?_eq_getElem hi
      rw [assignLoop, hget]
      have hsm : s ∉ m.map Prod.fst := h3 (i, s) (List.mem_cons_self _ _)
      show assignLoop topics t rest (dictSet m s topics[i % t]) =
        PyResult.ok (m ++ ((i, s) :: rest).map (fun p => (p.2, topics.getD (p.1 % t) "")))
      rw [dictSet_of_not_mem m s topics[i % t] hsm]
      have hs_rest : s ∉ rest.map Prod.snd := by
        have := h2
        simp only [List.map_cons, List.nodup_cons] at this
        exact this.1
      rw [ih (m ++ [(s, topics[i % t])])
        (fun p hp => h1 p (List.mem_cons_of_mem _ hp))
        (by
          have := h2
          simp only [List.map_cons, List.nodup_cons] at this
          exact this.2)
        (by
          intro p hp
          simp only [List.map_append, List.mem_append, List.map_cons,
            List.map_nil, List.mem_singleton]
          rintro (hx | hx)
          · exact h3 p (List.mem_cons_of_mem _ hp) hx
          · exact hs_rest (hx ▸ List.mem_map_of_mem Prod.snd hp))]
      rw [List.append_assoc]
      have hgetD : topics.getD (i % t) "" = topics[i % t] := by
        rw [List.getD_eq_getElem?_getD, hget]
        rfl
      simp only [List.map_cons, List.cons_append, List.nil_append, hgetD]

theorem assign_ok (g : Nat → Nat) (students topics : List String)
    (hnd : students.Nodup) (ht : topics ≠ []) :
    assign_topics_evenly g students topics =
      .ok ((shuffle g students).enum.map
        (fun p => (p.2, topics.getD (p.1 % topics.length) ""))) := by
  unfold assign_topics_evenly
  have hlen : 0 < topics.length := List.length_pos.mpr ht
  have hmax : max 1 topics.length = topics.length := by omega
  rw [hmax]
  have h := assignLoop_ok topics topics.length (shuffle g students).enum []
    (fun p _ => Nat.mod_lt _ hlen)
    (by
      rw [List.enum_map_snd]
      exact ((shuffle_perm g students).symm).nodup hnd)
    (fun p _ => by simp)
  simpa using h

theorem assign_result_keys (g : Nat → Nat) (students topics : List String) :
    (((shuffle g students).enum.map
        (fun p => (p.2, topics.getD (p.1 % topics.length) ""))).map Prod.fst).Perm
      students := by
  rw [List.map_map]
  have heq : (Prod.fst ∘ fun p : Nat × String =>
      (p.2, topics.getD (p.1 % topics.length) "")) = Prod.snd := rfl
  rw [heq, List.enum_map_snd]
  exact shuffle_perm g students

theorem assign_result_values (g : Nat → Nat) (students topics : List String)
    (ht : topics ≠ []) :
    ∀ p ∈ (shuffle g students).enum.map
        (fun p => (p.2, topics.getD (p.1 % topics.length) "")), p.2 ∈ topics := by
  intro p hp
  have hlen : 0 < topics.length := List.length_pos.mpr ht
  obtain ⟨q, _, hq⟩ := List.mem_map.mp hp
  have hmod : q.1 % topics.length < topics.length := Nat.mod_lt _ hlen
  rw [← hq]
  show topics.getD (q.1 % topics.length) "" ∈ topics
  rw [List.getD_eq_getElem?_getD, List.getElem?_eq_getElem hmod]
  exact List.getElem_mem hmod

theorem assign_bucket_len (g : Nat → Nat) (students topics : List String)
    (htnd : topics.Nodup) (ht : topics ≠ []) (j : Nat) (hj : j < topics.length) :
    (((shuffle g students).enum.map
        (fun p => (p.2, topics.getD (p.1 % topics.length) ""))).filter
          (fun p => p.2 = topics[j])).length =
      students.length / topics.length +
        if j < students.length % topics.length then 1 else 0 := by
  have hlen : 0 < topics.length := List.length_pos.mpr ht
  rw [length_filter_comp]
  have hpred : ∀ q ∈ (shuffle g students).enum,
      (decide ((q.2, topics.getD (q.1 % topics.length) "").2 = topics[j])) =
        (decide (q.1 % topics.length = j)) := by
    intro q _
    have hq : q.1 % topics.length < topics.length := Nat.mod_lt _ hlen
    show (decide (topics.getD (q.1 % topics.length) "" = topics[j])) = _
    rw [List.getD_eq_getElem?_getD, List.getElem?_eq_getElem hq]
    simp only [Option.getD_some]
    by_cases he : q.1 % topics.length = j
    · simp [he]
    · have hne : ¬ (topics[q.1 % topics.length] = topics[j]) := by
        intro hcon
        exact he ((htnd.getElem_inj_iff).mp hcon)
      simp [he, hne]
  rw [List.filter_congr hpred]
  have h2 : (((shuffle g students).enum).filter
      (fun q => decide (q.1 % topics.length = j))).length =
      ((((shuffle g students).enum).map Prod.fst).filter
        (fun i => decide (i % topics.length = j))).length := by
    rw [length_filter_comp]
  rw [h2, List.enum_map_fst, (shuffle_perm g students).length_eq]
  exact filter_mod_length topics.length j hlen hj students.length

theorem listMax_ge (l : List Nat) : ∀ x ∈ l, x ≤ listMax l := by
  induction l with
  | nil => intro x hx; simp at hx
  | cons y rest ih =>
      intro x hx
      rcases List.mem_cons.mp hx with h | h
      · rw [h]
        exact le_max_left y (listMax rest)
      · exact le_trans (ih x h) (le_max_right y (listMax rest))

theorem replicate_nil_getD {α : Type} (n k : Nat) :
    (List.replicate n ([] : List α)).getD k [] = [] := by
  rw [List.getD_eq_getElem?_getD]
  cases h : (List.replicate n ([] : List α))[k]? with
  | none => rfl
  | some v =>
      have hv : v = [] := List.eq_of_mem_replicate (List.getElem?_mem h)
      rw [hv]
      rfl

theorem placeTopics_length (n : Nat) :
    ∀ (eg : List (String × List String)) (gs : List (List (String × String))),
      (placeTopics n eg gs).length = gs.length := by
  intro eg
  induction eg with
  | nil => intro gs; rfl
  | cons p rest ih =>
      intro gs
      obtain ⟨tp, ms⟩ := p
      rw [placeTopics, ih, distributeFrom_length]

theorem placeTopics_getD (n : Nat) (h0 : 0 < n) :
    ∀ (eg : List (String × List String)) (gs : List (List (String × String)))
      (k : Nat), n = gs.length → k < gs.length →
      (placeTopics n eg gs).getD k [] = gs.getD k [] ++
        ((eg.map (fun p => takeEvery n k 0 (p.2.map (fun s => (s, p.1))))).flatten) := by
  intro eg
  induction eg with
  | nil => intro gs k _ _; simp [placeTopics]
  | cons p rest ih =>
      intro gs k hn hk
      obtain ⟨tp, ms⟩ := p
      rw [placeTopics]
      rw [ih (distributeFrom n 0 (ms.map (fun s => (s, tp))) gs) k
        (by rw [distributeFrom_length]; exact hn)
        (by rw [distributeFrom_length]; exact hk)]
      rw [distributeFrom_getD n h0 (ms.map (fun s => (s, tp))) 0 gs k hn hk]
      rw [List.map_cons, List.flatten_cons, List.append_assoc]

theorem placeTopics_flatten_perm (n : Nat) (h0 : 0 < n) :
    ∀ (eg : List (String × List String)) (gs : List (List (String × String))),
      n = gs.length →
      (placeTopics n eg gs).flatten.Perm
        (gs.flatten ++ ((eg.map (fun p => p.2.map (fun s => (s, p.1)))).flatten)) := by
  intro eg
  induction eg with
  | nil => intro gs _; simp [placeTopics]
  | cons p rest ih =>
      intro gs hn
      obtain ⟨tp, ms⟩ := p
      rw [placeTopics]
      have h1 := ih (distributeFrom n 0 (ms.map (fun s => (s, tp))) gs)
        (by rw [distributeFrom_length]; exact hn)
      have h2 := (distributeFrom_flatten_perm n h0 (ms.map (fun s => (s, tp))) 0 gs hn).append_right
        ((rest.map (fun p => p.2.map (fun s => (s, p.1)))).flatten)
      have h3 : ((gs.flatten ++ ms.map (fun s => (s, tp))) ++
          (rest.map (fun p => p.2.map (fun s => (s, p.1)))).flatten) =
          gs.flatten ++ (((tp, ms) :: rest).map (fun p => p.2.map (fun s => (s, p.1)))).flatten := by
        rw [List.map_cons, List.flatten_cons, List.append_assoc]
      rw [h3] at h2
      exact h1.trans h2

theorem group_snd_sublist (n k : Nat) (hk : k < n) :
    ∀ (eg : List (String × List String)), (∀ p ∈ eg, p.2.length ≤ n) →
      (((eg.map (fun p => takeEvery n k 0 (p.2.map (fun s => (s, p.1))))).flatten).map
        Prod.snd).Sublist (eg.map Prod.fst) := by
  intro eg
  induction eg with
  | nil => intro _; simp
  | cons p rest ih =>
      intro hle
      obtain ⟨tp, ms⟩ := p
      have hlen : (ms.map (fun s => (s, tp))).length ≤ n := by
        rw [List.length_map]
        exact hle (tp, ms) (List.mem_cons_self _ _)
      have hshort := takeEvery_of_short n k (ms.map (fun s => (s, tp))) 0
        (by simpa using hlen)
      rw [List.map_cons, List.flatten_cons, List.map_append, hshort,
        if_pos (Nat.zero_le k)]
      have hrest := ih (fun q hq => hle q (List.mem_cons_of_mem _ hq))
      rw [List.getElem?_map]
      cases hms : ms[k - 0]? with
      | none =>
          simp only [Option.map_none, Option.toList_none, List.map_nil,
            List.nil_append, List.map_cons]
          exact hrest.cons tp
      | some s =>
          simp only [Option.map_some, Option.toList_some, List.map_cons,
            List.map_nil, List.cons_append, List.nil_append]
          exact hrest.cons₂ tp

theorem build_stammgruppen_length (eg : List (String × List String))
    (hne : ∀ p ∈ eg, p.2 ≠ []) :
    (build_stammgruppen eg).length = listMax (eg.map (fun p => p.2.length)) := by
  unfold build_stammgruppen
  cases heg : eg with
  | nil => simp [listMax]
  | cons p rest =>
      have hp2 : p.2 ≠ [] := hne p (heg ▸ List.mem_cons_self _ _)
      have hp2len : 1 ≤ p.2.length := by
        cases h2 : p.2 with
        | nil => exact absurd h2 hp2
        | cons a b => simp
      have hmax : 1 ≤ listMax ((p :: rest).map (fun q => q.2.length)) := by
        exact le_trans hp2len (listMax_ge _ p.2.length (by simp))
      have hn0 : ¬ (listMax ((p :: rest).map (fun q => q.2.length)) = 0) := by omega
      simp only [List.isEmpty_cons, if_false, Bool.false_eq_true]
      rw [if_neg hn0, placeTopics_length, List.length_replicate]

theorem build_stammgruppen_flatten_perm (eg : List (String × List String))
    (hne : ∀ p ∈ eg, p.2 ≠ []) :
    (build_stammgruppen eg).flatten.Perm
      ((eg.map (fun p => p.2.map (fun s => (s, p.1)))).flatten) := by
  unfold build_stammgruppen
  cases heg : eg with
  | nil => simp
  | cons p rest =>
      have hp2 : p.2 ≠ [] := hne p (heg ▸ List.mem_cons_self _ _)
      have hp2len : 1 ≤ p.2.length := by
        cases h2 : p.2 with
        | nil => exact absurd h2 hp2
        | cons a b => simp
      have hmax : 1 ≤ listMax ((p :: rest).map (fun q => q.2.length)) := by
        exact le_trans hp2len (listMax_ge _ p.2.length (by simp))
      have hn0 : ¬ (listMax ((p :: rest).map (fun q => q.2.length)) = 0) := by omega
      simp only [List.isEmpty_cons, if_false, Bool.false_eq_true]
      rw [if_neg hn0]
      have h1 := placeTopics_flatten_perm (listMax ((p :: rest).map (fun q => q.2.length)))
        (by omega) (p :: rest)
        (List.replicate (listMax ((p :: rest).map (fun q => q.2.length))) [])
        (by rw [List.length_replicate])
      simpa using h1

theorem mem_getD_of_mem {α : Type} (l : List (List α)) (grp : List α)
    (h : grp ∈ l) : ∃ k, k < l.length ∧ l.getD k [] = grp := by
  obtain ⟨k, hk, hke⟩ := List.mem_iff_getElem.mp h
  refine ⟨k, hk, ?_⟩
  rw [List.getD_eq_getElem?_getD, List.getElem?_eq_getElem hk, Option.getD_some]
  exact hke

theorem takeEvery_zero_length {α : Type} (t j : Nat) (ht : 0 < t) (hj : j < t)
    (l : List α) :
    (takeEvery t j 0 l).length = l.length / t + if j < l.length % t then 1 else 0 := by
  rw [takeEvery_length]
  have hcong : ∀ p ∈ List.range l.length,
      (decide ((0 + p) % t = j)) = (decide (p % t = j)) := by
    intro p _
    rw [Nat.zero_add]
  rw [List.filter_congr hcong]
  exact filter_mod_length t j ht hj l.length

theorem build_stammgruppen_group_snd_nodup (eg : List (String × List String))
    (hkeys : (eg.map Prod.fst).Nodup) :
    ∀ grp ∈ build_stammgruppen eg, (grp.map Prod.snd).Nodup := by
  intro grp hgrp
  unfold build_stammgruppen at hgrp
  cases heg : eg with
  | nil =>
      rw [heg] at hgrp
      simp at hgrp
  | cons p rest =>
      rw [heg] at hgrp
      simp only [List.isEmpty_cons, Bool.false_eq_true, if_false] at hgrp
      by_cases hn : listMax ((p :: rest).map (fun q => q.2.length)) = 0
      · rw [if_pos hn] at hgrp
        simp at hgrp
      · rw [if_neg hn] at hgrp
        obtain ⟨k, hk, hke⟩ := mem_getD_of_mem _ grp hgrp
        rw [placeTopics_length, List.length_replicate] at hk
        rw [placeTopics_getD _ (by omega) _ _ k
          (by rw [List.length_replicate]) (by rw [List.length_replicate]; exact hk),
          replicate_nil_getD, List.nil_append] at hke
        rw [← hke]
        have hle : ∀ q ∈ (p :: rest), q.2.length ≤
            listMax ((p :: rest).map (fun q => q.2.length)) := by
          intro q hq
          exact listMax_ge _ _ (List.mem_map_of_mem (fun q => q.2.length) hq)
        have hsub := group_snd_sublist _ k hk (p :: rest) hle
        rw [heg] at hkeys
        exact hsub.nodup hkeys

theorem build_flatten_fst_perm (a : List (String × String)) :
    (((build_stammgruppen (invert_to_experts a)).flatten).map Prod.fst).Perm
      (a.map Prod.fst) := by
  have h1 := (build_stammgruppen_flatten_perm (invert_to_experts a)
    (invert_snd_ne_nil a)).map Prod.fst
  have h2 : ((((invert_to_experts a).map
      (fun p => p.2.map (fun s => (s, p.1)))).flatten).map Prod.fst)
      = ((invert_to_experts a).map Prod.snd).flatten := by
    rw [List.map_flatten, List.map_map]
    congr 1
    apply List.map_congr_left
    intro p _
    show List.map Prod.fst (p.2.map (fun s => (s, p.1))) = p.2
    rw [List.map_map]
    have hfun : (Prod.fst ∘ fun s : String => (s, p.1)) = id := rfl
    rw [hfun, List.map_id]
  rw [h2] at h1
  exact h1.trans (invert_flatten_perm a)

theorem build_simple_groups_cond (gc : Int) (students : List String)
    (h1 : students ≠ []) (h2 : 0 < gc) : ¬ (gc ≤ 0 ∨ students = []) := by
  push_neg
  exact ⟨by omega, h1⟩

theorem build_simple_groups_length (g : Nat → Nat) (students : List String)
    (gc : Int) (h1 : students ≠ []) (h2 : 0 < gc) :
    (build_simple_groups g students gc).length = min gc.toNat students.length := by
  unfold build_simple_groups
  rw [if_neg (build_simple_groups_cond gc students h1 h2)]
  rw [distributeFrom_length, List.length_replicate]

theorem build_simple_groups_count_pos (students : List String) (gc : Int)
    (h1 : students ≠ []) (h2 : 0 < gc) : 0 < min gc.toNat students.length := by
  have hl : 0 < students.length := List.length_pos.mpr h1
  have ht : 0 < gc.toNat := by omega
  omega

theorem build_simple_groups_getD (g : Nat → Nat) (students : List String)
    (gc : Int) (h1 : students ≠ []) (h2 : 0 < gc) (k : Nat)
    (hk : k < min gc.toNat students.length) :
    (build_simple_groups g students gc).getD k [] =
      takeEvery (min gc.toNat students.length) k 0 (shuffle g students) := by
  unfold build_simple_groups
  rw [if_neg (build_simple_groups_cond gc students h1 h2)]
  rw [distributeFrom_getD _ (build_simple_groups_count_pos students gc h1 h2) _ 0 _ k
    (by rw [List.length_replicate]) (by rw [List.length_replicate]; exact hk)]
  rw [replicate_nil_getD, List.nil_append]

theorem tick_countdown :
    ∀ (k : Nat) (st : SessionState), st.running = true → st.seconds_left = k →
      tick^[k] st = { st with seconds_left := 0 } := by
  intro k
  induction k with
  | zero =>
      intro st hr hs
      simp only [Function.iterate_zero, id]
      cases st
      simp_all
  | succ k ih =>
      intro st hr hs
      rw [Function.iterate_succ_apply]
      have htick : tick st = { st with seconds_left := k } := by
        unfold tick
        rw [if_pos hr, if_pos (by omega)]
        rw [hs]
        simp
      rw [htick]
      have h2 := ih { st with seconds_left := k } hr rfl
      rw [h2]

/-- A concrete draw oracle (one possible Mersenne-Twister draw stream),
used to instantiate witnesses and counterexamples. -/
def g0 : Nat → Nat := fun _ => 0

/-- C1: for every draw oracle (hence every seed), every roster of at least
one unique learner name and every duplicate-free topic list of length at
least 1, `assign_topics_evenly` returns a mapping whose keys are exactly
the learners of the roster, each key carrying one topic drawn from the
topic list, and the per-topic bucket sizes differ pairwise by at most 1. -/
theorem claim_C1_assign_evenly (g : Nat → Nat) (students topics : List String)
    (hs : students ≠ []) (hnd : students.Nodup)
    (ht : topics ≠ []) (htnd : topics.Nodup) :
    ∃ m, assign_topics_evenly g students topics = PyResult.ok m ∧
      (m.map Prod.fst).Perm students ∧
      (∀ p ∈ m, p.2 ∈ topics) ∧
      (∀ t1 ∈ topics, ∀ t2 ∈ topics,
        (m.filter (fun p => p.2 = t1)).length ≤
          (m.filter (fun p => p.2 = t2)).length + 1) := by
  refine ⟨_, assign_ok g students topics hnd ht,
    assign_result_keys g students topics,
    assign_result_values g students topics ht, ?_⟩
  intro t1 ht1 t2 ht2
  obtain ⟨j1, hj1, hj1e⟩ := List.mem_iff_getElem.mp ht1
  obtain ⟨j2, hj2, hj2e⟩ := List.mem_iff_getElem.mp ht2
  rw [← hj1e, ← hj2e]
  rw [assign_bucket_len g students topics htnd ht j1 hj1,
    assign_bucket_len g students topics htnd ht j2 hj2]
  split_ifs <;> omega

/-- C1 witness: the property instantiated at a concrete roster, topic list
and draw oracle. -/
theorem claim_C1_witness :
    ∃ m, assign_topics_evenly g0 ["Ana", "Ben", "Cem"] ["X", "Y"] = PyResult.ok m ∧
      (m.map Prod.fst).Perm ["Ana", "Ben", "Cem"] ∧
      (∀ p ∈ m, p.2 ∈ ["X", "Y"]) ∧
      (∀ t1 ∈ ["X", "Y"], ∀ t2 ∈ ["X", "Y"],
        (m.filter (fun p => p.2 = t1)).length ≤
          (m.filter (fun p => p.2 = t2)).length + 1) :=
  claim_C1_assign_evenly g0 ["Ana", "Ben", "Cem"] ["X", "Y"]
    (by decide) (by decide) (by decide) (by decide)

/-- C7: for every assignment with duplicate-free keys, `invert_to_experts`
produces buckets in which every learner of the assignment occurs exactly
once over all buckets, whose total membership equals the number of
learners, each bucket sorted alphabetically, and whose topics are exactly
the topics that received at least one learner. -/
theorem claim_C7_invert (a : List (String × String))
    (h : (a.map Prod.fst).Nodup) :
    (∀ s ∈ a.map Prod.fst,
      ((((invert_to_experts a).map Prod.snd).flatten).count s) = 1) ∧
    ((((invert_to_experts a).map Prod.snd).flatten).length = a.length) ∧
    (∀ p ∈ invert_to_experts a, List.Sorted (· ≤ ·) p.2) ∧
    (∀ tp : String,
      tp ∈ (invert_to_experts a).map Prod.fst ↔ tp ∈ a.map Prod.snd) := by
  refine ⟨?_, ?_, invert_sorted a, fun tp => invert_keys_mem a tp⟩
  · intro s hs
    rw [(invert_flatten_perm a).count_eq s]
    exact List.count_eq_one_of_mem h hs
  · rw [(invert_flatten_perm a).length_eq, List.length_map]

/-- C7 witness: the property instantiated at a concrete assignment. -/
theorem claim_C7_witness :
    (∀ s ∈ ([("Ben", "X"), ("Cem", "Y"), ("Ana", "X")].map Prod.fst),
      ((((invert_to_experts [("Ben", "X"), ("Cem", "Y"), ("Ana", "X")]).map
        Prod.snd).flatten).count s) = 1) ∧
    ((((invert_to_experts [("Ben", "X"), ("Cem", "Y"), ("Ana", "X")]).map
      Prod.snd).flatten).length =
        ([("Ben", "X"), ("Cem", "Y"), ("Ana", "X")] :
          List (String × String)).length) ∧
    (∀ p ∈ invert_to_experts [("Ben", "X"), ("Cem", "Y"), ("Ana", "X")],
      List.Sorted (· ≤ ·) p.2) ∧
    (∀ tp : String,
      tp ∈ (invert_to_experts [("Ben", "X"), ("Cem", "Y"), ("Ana", "X")]).map
        Prod.fst ↔
      tp ∈ [("Ben", "X"), ("Cem", "Y"), ("Ana", "X")].map Prod.snd) :=
  claim_C7_invert [("Ben", "X"), ("Cem", "Y"), ("Ana", "X")] (by decide)

/-- C2: for every expert-group mapping produced by `invert_to_experts`
from an assignment with duplicate-free keys, `build_stammgruppen` returns
exactly as many groups as the size of the largest bucket (and in general
an empty list whenever the mapping is empty or the largest bucket is
empty, never an error), every learner of the assignment lands in exactly
one home group, and no home group holds two learners of the same topic. -/
theorem claim_C2_stammgruppen (a : List (String × String))
    (h : (a.map Prod.fst).Nodup) :
    ((build_stammgruppen (invert_to_experts a)).length =
      listMax ((invert_to_experts a).map (fun p => p.2.length))) ∧
    ((((build_stammgruppen (invert_to_experts a)).flatten).map Prod.fst).Perm
      (a.map Prod.fst)) ∧
    (∀ s ∈ a.map Prod.fst,
      (((build_stammgruppen (invert_to_experts a)).flatten).map Prod.fst).count s
        = 1) ∧
    (∀ grp ∈ build_stammgruppen (invert_to_experts a),
      (grp.map Prod.snd).Nodup) ∧
    (∀ eg : List (String × List String),
      eg = [] ∨ listMax (eg.map (fun p => p.2.length)) = 0 →
        build_stammgruppen eg = []) := by
  refine ⟨build_stammgruppen_length _ (invert_snd_ne_nil a),
    build_flatten_fst_perm a, ?_,
    build_stammgruppen_group_snd_nodup _ (invert_keys_nodup a), ?_⟩
  · intro s hs
    rw [(build_flatten_fst_perm a).count_eq s]
    exact List.count_eq_one_of_mem h hs
  · intro eg heg
    rcases heg with heg | heg
    · rw [heg]
      rfl
    · unfold build_stammgruppen
      cases heg2 : eg with
      | nil => simp
      | cons p rest =>
          simp only [List.isEmpty_cons, Bool.false_eq_true, if_false]
          rw [heg2] at heg
          rw [if_pos heg]

/-- C2 witness: the property instantiated at a concrete assignment. -/
theorem claim_C2_witness :
    ((build_stammgruppen (invert_to_experts
        [("Ben", "X"), ("Cem", "Y"), ("Ana", "X")])).length =
      listMax ((invert_to_experts
        [("Ben", "X"), ("Cem", "Y"), ("Ana", "X")]).map (fun p => p.2.length))) ∧
    ((((build_stammgruppen (invert_to_experts
        [("Ben", "X"), ("Cem", "Y"), ("Ana", "X")])).flatten).map Prod.fst).Perm
      ([("Ben", "X"), ("Cem", "Y"), ("Ana", "X")].map Prod.fst)) ∧
    (∀ s ∈ [("Ben", "X"), ("Cem", "Y"), ("Ana", "X")].map Prod.fst,
      (((build_stammgruppen (invert_to_experts
        [("Ben", "X"), ("Cem", "Y"), ("Ana", "X")])).flatten).map Prod.fst).count s
        = 1) ∧
    (∀ grp ∈ build_stammgruppen (invert_to_experts
        [("Ben", "X"), ("Cem", "Y"), ("Ana", "X")]),
      (grp.map Prod.snd).Nodup) ∧
    (∀ eg : List (String × List String),
      eg = [] ∨ listMax (eg.map (fun p => p.2.length)) = 0 →
        build_stammgruppen eg = []) :=
  claim_C2_stammgruppen [("Ben", "X"), ("Cem", "Y"), ("Ana", "X")] (by decide)

/-- C8 counterexample: with roster ["Ana","Ben","Cem"] (|R| = 3) and topics
["X","Y"] (|T| = 2, so |R| is not a multiple of |T|), the bucket of the
earlier topic "X" has the extra learner (size 2 = ceil(3/2)) while the
later topic "Y" has size 1 = floor(3/2) — the opposite of the claim that
the later topics in index order receive the remainder. -/
theorem claim_C8_counterexample :
    assign_topics_evenly g0 ["Ana", "Ben", "Cem"] ["X", "Y"] =
      PyResult.ok [("Ben", "X"), ("Cem", "Y"), ("Ana", "X")] ∧
    (([("Ben", "X"), ("Cem", "Y"), ("Ana", "X")] :
      List (String × String)).filter (fun p => p.2 = "X")).length = 2 ∧
    (([("Ben", "X"), ("Cem", "Y"), ("Ana", "X")] :
      List (String × String)).filter (fun p => p.2 = "Y")).length = 1 := by
  refine ⟨?_, by decide, by decide⟩
  rfl

/-- C8 amended: the topics that receive the extra learner are exactly the
EARLIER topics in index order: for every j < |T|, the bucket of topic j has
size |R| / |T| + 1 when j < |R| mod |T| and size |R| / |T| otherwise. -/
theorem claim_C8_amended (g : Nat → Nat) (students topics : List String)
    (hnd : students.Nodup) (htnd : topics.Nodup) (ht : topics ≠ [])
    (hmod : students.length % topics.length ≠ 0) :
    ∃ m, assign_topics_evenly g students topics = PyResult.ok m ∧
      ∀ j, (hj : j < topics.length) →
        (m.filter (fun p => p.2 = topics[j])).length =
          students.length / topics.length +
            if j < students.length % topics.length then 1 else 0 := by
  refine ⟨_, assign_ok g students topics hnd ht, ?_⟩
  intro j hj
  exact assign_bucket_len g students topics htnd ht j hj

/-- C8 witness: the amended property instantiated at a concrete input. -/
theorem claim_C8_witness :
    ∃ m, assign_topics_evenly g0 ["Ana", "Ben", "Cem"] ["X", "Y"] =
      PyResult.ok m ∧
      ∀ j, (hj : j < (["X", "Y"] : List String).length) →
        (m.filter (fun p => p.2 = (["X", "Y"] : List String)[j])).length =
          (["Ana", "Ben", "Cem"] : List String).length /
            (["X", "Y"] : List String).length +
            if j < (["Ana", "Ben", "Cem"] : List String).length %
              (["X", "Y"] : List String).length then 1 else 0 :=
  claim_C8_amended g0 ["Ana", "Ben", "Cem"] ["X", "Y"]
    (by decide) (by decide) (by decide) (by decide)

/-- A concrete Phase-1 session state used by witnesses and counterexamples. -/
def exSt : SessionState :=
  { students := ["Ana"], topics := ["X"], dur_expert := 1, dur_stamm := 1,
    assignment := [("Ana", "X")], experts := [("X", ["Ana"])],
    stammgruppen := [[("Ana", "X")]], phase := 1, seconds_left := 1,
    running := true }

/-- The same session state already in Phase 3. -/
def exSt3 : SessionState := { exSt with phase := 3 }

/-- C3 counterexample: from running = true and seconds_left = k = 1, one
tick (k ticks) drives seconds_left to 0 but leaves running = true; the
claim demands running = false after k ticks. -/
theorem claim_C3_counterexample :
    (tick^[1] exSt).seconds_left = 0 ∧ (tick^[1] exSt).running = true := by
  constructor <;> rfl

/-- C3 amended: from running = true and seconds_left = k ≥ 1, k ticks
drive seconds_left to exactly 0 with running STILL true and no other field
changed; the (k+1)-th tick performs no further decrement and is the one
that sets running = false. -/
theorem claim_C3_amended (st : SessionState) (k : Nat) (hr : st.running = true)
    (hs : st.seconds_left = k) (hk : 1 ≤ k) :
    tick^[k] st = { st with seconds_left := 0 } ∧
    tick^[k + 1] st = { st with seconds_left := 0, running := false } := by
  have h1 := tick_countdown k st hr hs
  refine ⟨h1, ?_⟩
  rw [Function.iterate_succ_apply', h1]
  unfold tick
  have hc : ({ st with seconds_left := 0 } : SessionState).running = true := hr
  have hc2 : ¬ (({ st with seconds_left := 0 } : SessionState).seconds_left > 0) := by
    show ¬ ((0 : Nat) > 0)
    omega
  rw [if_pos hc, if_neg hc2]

/-- C3 witness: the amended property at the concrete state with k = 1. -/
theorem claim_C3_witness :
    tick^[1] exSt = { exSt with seconds_left := 0 } ∧
    tick^[1 + 1] exSt = { exSt with seconds_left := 0, running := false } :=
  claim_C3_amended exSt 1 rfl rfl (by decide)

/-- C4 counterexample: with topic "Z" not in the topic list, the
reassignment is not rejected: the signal is `applied` and the assignment
is mutated. -/
theorem claim_C4_counterexample :
    ("Z" ∉ exSt.topics) ∧
    (apply_change exSt "Ana" "Z").2 = ApplySignal.applied ∧
    (apply_change exSt "Ana" "Z").1.assignment ≠ exSt.assignment := by
  refine ⟨by decide, by decide, by decide⟩

/-- C4 amended: `_apply_change` rejects (returning the state unchanged
with a warning) exactly when the selected student or topic is the empty
string; it performs no roster or topic-list membership check, so any
non-empty pair — the read-only comboboxes of the UI are what restricts
the choices to Roster and TopicList — is applied:
assignment[s] := t and the groupings are recomputed. -/
theorem claim_C4_amended (st : SessionState) (s t : String) :
    (apply_change st s t = (st, ApplySignal.warned) ↔ (s = "" ∨ t = "")) ∧
    (s ≠ "" → t ≠ "" →
      (apply_change st s t).2 = ApplySignal.applied ∧
      (apply_change st s t).1.assignment = dictSet st.assignment s t) := by
  unfold apply_change
  by_cases h : s = "" ∨ t = ""
  · rw [if_pos h]
    refine ⟨⟨fun _ => h, fun _ => rfl⟩, ?_⟩
    intro hs ht
    rcases h with h | h
    · exact absurd h hs
    · exact absurd h ht
  · rw [if_neg h]
    constructor
    · constructor
      · intro he
        have h2 := congrArg Prod.snd he
        simp at h2
      · intro hc
        exact absurd hc h
    · intro _ _
      exact ⟨rfl, rfl⟩

/-- C4 witness: the amended property at a concrete state and selection. -/
theorem claim_C4_witness :
    (apply_change exSt "Ana" "Z" = (exSt, ApplySignal.warned) ↔
      ("Ana" = "" ∨ "Z" = "")) ∧
    ("Ana" ≠ "" → "Z" ≠ "" →
      (apply_change exSt "Ana" "Z").2 = ApplySignal.applied ∧
      (apply_change exSt "Ana" "Z").1.assignment =
        dictSet exSt.assignment "Ana" "Z") :=
  claim_C4_amended exSt "Ana" "Z"

/-- C5 counterexample: calling `_next` from Phase 3 with the timer running
does mutate the state: running is forced to false. -/
theorem claim_C5_counterexample :
    exSt3.phase = 3 ∧ exSt3.running = true ∧
    (next_phase exSt3).2 = NextSignal.sessionComplete ∧
    (next_phase exSt3).1 ≠ exSt3 := by
  refine ⟨rfl, rfl, rfl, by decide⟩

/-- C5 amended: from Phase 3, `_next` signals session completion and
changes nothing except forcing running to false (phase, seconds_left,
assignment, experts and stammgruppen are untouched). -/
theorem claim_C5_amended (st : SessionState) (h : st.phase = 3) :
    next_phase st = ({ st with running := false }, NextSignal.sessionComplete) := by
  unfold next_phase
  rw [if_neg (by omega)]

/-- C5 witness: the amended property at the concrete Phase-3 state. -/
theorem claim_C5_witness :
    next_phase exSt3 = ({ exSt3 with running := false },
      NextSignal.sessionComplete) :=
  claim_C5_amended exSt3 rfl

/-- C6 counterexample: called with a non-empty roster and an empty topic
list, `assign_topics_evenly` ends in an uncaught IndexError (the subscript
`topics[0]` on the empty list), which is not a ConfigurationError signal. -/
theorem claim_C6_counterexample :
    assign_topics_evenly g0 ["Ana"] [] = PyResult.exn "IndexError" ∧
    (PyResult.exn "IndexError" : PyResult (List (String × String))) ≠
      PyResult.exn "ConfigurationError" := by
  refine ⟨rfl, by decide⟩

/-- C6 amended: with an empty topic list the function does not signal a
ConfigurationError: for a non-empty roster it crashes with an uncaught
IndexError, and for an empty roster it silently returns the empty
assignment. -/
theorem claim_C6_amended (g : Nat → Nat) (students : List String)
    (h : students ≠ []) :
    assign_topics_evenly g students [] = PyResult.exn "IndexError" ∧
    assign_topics_evenly g [] [] = PyResult.ok [] := by
  constructor
  · unfold assign_topics_evenly
    have hlen : shuffle g students ≠ [] := by
      intro hcon
      apply h
      have hl := (shuffle_perm g students).length_eq
      rw [hcon] at hl
      exact List.length_eq_zero.mp hl.symm
    rcases hsh : shuffle g students with _ | ⟨x, rest⟩
    · exact absurd hsh hlen
    · rfl
  · rfl

/-- C6 witness: the amended property at a concrete roster and oracle. -/
theorem claim_C6_witness :
    assign_topics_evenly g0 ["Ana"] [] = PyResult.exn "IndexError" ∧
    assign_topics_evenly g0 [] [] = PyResult.ok [] :=
  claim_C6_amended g0 ["Ana"] (by decide)

/-- C9: for every non-empty roster and every requested group count larger
than the roster size, `build_simple_groups` silently clamps the effective
count to the roster size and returns that many groups of exactly one
learner each, with no error. -/
theorem claim_C9_clamp (g : Nat → Nat) (students : List String) (gc : Int)
    (h1 : students ≠ []) (h2 : (students.length : Int) < gc) :
    (build_simple_groups g students gc).length = students.length ∧
    ∀ grp ∈ build_simple_groups g students gc, grp.length = 1 := by
  have hpos : 0 < gc := by omega
  have hmin : min gc.toNat students.length = students.length := by
    have hlt : students.length < gc.toNat := Int.lt_toNat.mpr h2
    omega
  constructor
  · rw [build_simple_groups_length g students gc h1 hpos, hmin]
  · intro grp hgrp
    obtain ⟨k, hk, hke⟩ := mem_getD_of_mem _ grp hgrp
    rw [build_simple_groups_length g students gc h1 hpos, hmin] at hk
    rw [build_simple_groups_getD g students gc h1 hpos k
      (by rw [hmin]; exact hk)] at hke
    rw [hmin] at hke
    have hslen : (shuffle g students).length = students.length :=
      (shuffle_perm g students).length_eq
    have hshort := takeEvery_of_short students.length k (shuffle g students) 0
      (by omega)
    rw [if_pos (Nat.zero_le k)] at hshort
    rw [hshort] at hke
    have hk2 : k - 0 < (shuffle g students).length := by omega
    rw [List.getElem?_eq_getElem hk2] at hke
    rw [← hke]
    rfl

/-- C9 witness: three learners and a requested count of 5 give three
singleton groups. -/
theorem claim_C9_witness :
    (build_simple_groups g0 ["Ana", "Ben", "Cem"] 5).length =
      (["Ana", "Ben", "Cem"] : List String).length ∧
    ∀ grp ∈ build_simple_groups g0 ["Ana", "Ben", "Cem"] 5, grp.length = 1 :=
  claim_C9_clamp g0 ["Ana", "Ben", "Cem"] 5 (by decide) (by decide)

/-- C10 (implicit): for every duplicate-free roster and requested count
at least 1, the groups of `build_simple_groups` partition the roster
(every learner in exactly one group, no duplicates inside a group) with
sizes differing pairwise by at most 1, and a non-positive count or an
empty roster yields the empty list rather than an error. -/
theorem claim_C10_simple_groups (g : Nat → Nat) (students : List String)
    (gc : Int) (hnd : students.Nodup) (hgc : 1 ≤ gc) :
    ((build_simple_groups g students gc).flatten).Perm students ∧
    (∀ grp ∈ build_simple_groups g students gc, grp.Nodup) ∧
    (∀ g1 ∈ build_simple_groups g students gc,
      ∀ g2 ∈ build_simple_groups g students gc,
        g1.length ≤ g2.length + 1) ∧
    (∀ (gc2 : Int) (sts : List String), gc2 ≤ 0 ∨ sts = [] →
      build_simple_groups g sts gc2 = []) := by
  have hlast : ∀ (gc2 : Int) (sts : List String), gc2 ≤ 0 ∨ sts = [] →
      build_simple_groups g sts gc2 = [] := by
    intro gc2 sts hor
    unfold build_simple_groups
    rw [if_pos hor]
  by_cases hemp : students = []
  · subst hemp
    rw [hlast gc [] (Or.inr rfl)]
    exact ⟨by simp, by simp, by simp, hlast⟩
  · have hpos : 0 < gc := by omega
    have hcpos : 0 < min gc.toNat students.length :=
      build_simple_groups_count_pos students gc hemp hpos
    refine ⟨?_, ?_, ?_, hlast⟩
    · have hb : build_simple_groups g students gc =
          distributeFrom (min gc.toNat students.length) 0 (shuffle g students)
            (List.replicate (min gc.toNat students.length) []) := by
        unfold build_simple_groups
        rw [if_neg (build_simple_groups_cond gc students hemp hpos)]
      rw [hb]
      have hp := distributeFrom_flatten_perm _ hcpos (shuffle g students) 0
        (List.replicate (min gc.toNat students.length) [])
        (by rw [List.length_replicate])
      simp only [List.flatten_replicate_nil, List.nil_append] at hp
      exact hp.trans (shuffle_perm g students)
    · intro grp hgrp
      obtain ⟨k, hk, hke⟩ := mem_getD_of_mem _ grp hgrp
      rw [build_simple_groups_length g students gc hemp hpos] at hk
      rw [build_simple_groups_getD g students gc hemp hpos k hk] at hke
      rw [← hke]
      exact (takeEvery_sublist _ k _ 0).nodup
        ((shuffle_perm g students).symm.nodup hnd)
    · intro g1 hg1 g2 hg2
      obtain ⟨k1, hk1, hke1⟩ := mem_getD_of_mem _ g1 hg1
      obtain ⟨k2, hk2, hke2⟩ := mem_getD_of_mem _ g2 hg2
      rw [build_simple_groups_length g students gc hemp hpos] at hk1 hk2
      rw [build_simple_groups_getD g students gc hemp hpos k1 hk1] at hke1
      rw [build_simple_groups_getD g students gc hemp hpos k2 hk2] at hke2
      have l1 : g1.length = (shuffle g students).length /
          min gc.toNat students.length +
          if k1 < (shuffle g students).length % min gc.toNat students.length
            then 1 else 0 := by
        rw [← hke1]
        exact takeEvery_zero_length _ k1 hcpos hk1 (shuffle g students)
      have l2 : g2.length = (shuffle g students).length /
          min gc.toNat students.length +
          if k2 < (shuffle g students).length % min gc.toNat students.length
            then 1 else 0 := by
        rw [← hke2]
        exact takeEvery_zero_length _ k2 hcpos hk2 (shuffle g students)
      rw [l1, l2]
      split_ifs <;> omega

/-- C10 witness: the property instantiated at a concrete roster, count and
oracle. -/
theorem claim_C10_witness :
    ((build_simple_groups g0 ["Ana", "Ben", "Cem", "Dua", "Eli"] 2).flatten).Perm
      ["Ana", "Ben", "Cem", "Dua", "Eli"] ∧
    (∀ grp ∈ build_simple_groups g0 ["Ana", "Ben", "Cem", "Dua", "Eli"] 2,
      grp.Nodup) ∧
    (∀ g1 ∈ build_simple_groups g0 ["Ana", "Ben", "Cem", "Dua", "Eli"] 2,
      ∀ g2 ∈ build_simple_groups g0 ["Ana", "Ben", "Cem", "Dua", "Eli"] 2,
        g1.length ≤ g2.length + 1) ∧
    (∀ (gc2 : Int) (sts : List String), gc2 ≤ 0 ∨ sts = [] →
      build_simple_groups g0 sts gc2 = []) :=
  claim_C10_simple_groups g0 ["Ana", "Ben", "Cem", "Dua", "Eli"] 2
    (by decide) (by decide)
